import Mathlib

/-! Metrics sizers of `exporter/exporterhelper/internal/sizer`

A shallow embedding of `metrics_sizer.go`: the byte strategy's `DeltaSize`
and the count strategy's size queries over the `pmetric` hierarchy
(resource → scope → metric → data point).

Go's `int` is taken as the 64-bit two's complement integer.  A value of type
`int` is an `Int` in the range `minInt .. maxInt`; the arithmetic of
`MetricsBytesSizer.DeltaSize`, whose argument is an arbitrary caller-supplied
`int`, wraps explicitly.  The counters of the count strategy add up lengths
of slices that are held in memory, so they stay far below `2^63` and are
kept as exact integers.
-/

namespace sizer

/-! ## Machine integers -/

/-- Largest value of Go's 64-bit `int`. -/
def maxInt : Int := 2 ^ 63 - 1

/-- Smallest value of Go's 64-bit `int`. -/
def minInt : Int := -(2 ^ 63)

/-- Range predicate of Go's 64-bit `int`. -/
def isInt (x : Int) : Prop := minInt ≤ x ∧ x ≤ maxInt

instance (x : Int) : Decidable (isInt x) := by
  unfold isInt; exact inferInstance

/-- Two's complement reduction of a mathematical integer to a 64-bit `int`. -/
def wrapInt (x : Int) : Int := (x + 2 ^ 63) % 2 ^ 64 - 2 ^ 63

/-- Go's `a + b` on `int` operands. -/
def intAdd (a b : Int) : Int := wrapInt (a + b)

/-- Go's conversion `uint64(n)` of an `int`. -/
def uint64 (n : Int) : Nat := (n % 2 ^ 64).toNat

/-- Bit length of `x` computed by at most `fuel` halvings. -/
def bitLenAux : Nat → Nat → Nat
  | 0, _ => 0
  | fuel + 1, x => if x = 0 then 0 else 1 + bitLenAux fuel (x / 2)

/-- Number of bits needed to write a `uint64` (`bits.Len64`), 0 for 0. -/
def bitLen (x : Nat) : Nat := bitLenAux 64 x

/-- Modelled from the spec: the helper `sov` of package `sizer` is not in
`metrics_sizer.go`.  The spec gives it as `varintLength(n)`: "⌈bitlength(n)/7⌉
with the convention that n=0 still costs 1 byte". -/
def sov (x : Nat) : Int := if x = 0 then 1 else ((bitLen x + 6) / 7 : Nat)

/-! ## Base-128 varint encoding (the wire format the spec refers to) -/

/-- Bytes of the base-128 varint encoding, least significant group first;
every byte but the last carries the continuation bit `0x80`. -/
def varintEncodeAux : Nat → Nat → List Nat
  | 0, _ => []
  | fuel + 1, x =>
    if x < 128 then [x] else (x % 128 + 128) :: varintEncodeAux fuel (x / 128)

/-- Base-128 varint encoding of a `uint64` (at most ten bytes). -/
def varintEncode (x : Nat) : List Nat := varintEncodeAux 10 x

/-- Number of bytes of the base-128 varint encoding of `x`. -/
def varintLength (x : Nat) : Nat := (varintEncode x).length

/-- Value read back from a base-128 varint byte sequence. -/
def varintDecode : List Nat → Nat
  | [] => 0
  | b :: bs => b % 128 + 128 * varintDecode bs

/-! ## Byte strategy -/

namespace MetricsBytesSizer

/-- Source: `func (s *MetricsBytesSizer) DeltaSize(newItemSize int) int`,
`return 1 + newItemSize + sov(uint64(newItemSize))`. -/
def DeltaSize (newItemSize : Int) : Int :=
  intAdd (intAdd 1 newItemSize) (sov (uint64 newItemSize))

end MetricsBytesSizer

/-! ## The `pmetric` data model read by the count strategy

The sizer only reads the hierarchy.  The declarations below follow the
`pmetric` package: every repeated field is a slice with `Len` and `At`, a
metric holds at most one of five kinds of data, and an accessor applied to a
metric of another kind has nothing to return.  `none` stands for a run-time
panic. -/

namespace pmetric

/-- A `pmetric` slice (`ResourceMetricsSlice`, `ScopeMetricsSlice`,
`MetricSlice` and the four data point slices share this shape). -/
structure Slice (α : Type) where
  items : List α
deriving DecidableEq

/-- Go `Len()`: number of elements, as an `int`. -/
def Slice.Len {α : Type} (s : Slice α) : Int := s.items.length

/-- Go `At(i)`: the element at index `i`; panics (`none`) unless
`0 <= i < Len()`. -/
def Slice.At {α : Type} (s : Slice α) (i : Int) : Option α :=
  if 0 ≤ i ∧ i < s.Len then s.items.get? i.toNat else none

/-- Go `AppendEmpty()` followed by filling the new element with `x`. -/
def Slice.append {α : Type} (s : Slice α) (x : α) : Slice α := ⟨s.items ++ [x]⟩

/-- Point of a gauge or a sum. -/
structure NumberDataPoint where
  Attributes : List (String × String)
  StartTimestamp : Nat
  Timestamp : Nat
  IntValue : Int
deriving DecidableEq

/-- Point of a histogram. -/
structure HistogramDataPoint where
  Attributes : List (String × String)
  StartTimestamp : Nat
  Timestamp : Nat
  Count : Nat
  BucketCounts : List Nat
deriving DecidableEq

/-- Point of an exponential histogram. -/
structure ExponentialHistogramDataPoint where
  Attributes : List (String × String)
  StartTimestamp : Nat
  Timestamp : Nat
  Count : Nat
  Scale : Int
  ZeroCount : Nat
deriving DecidableEq

/-- Point of a summary. -/
structure SummaryDataPoint where
  Attributes : List (String × String)
  StartTimestamp : Nat
  Timestamp : Nat
  Count : Nat
deriving DecidableEq

structure Gauge where
  DataPoints : Slice NumberDataPoint
deriving DecidableEq

structure Sum where
  DataPoints : Slice NumberDataPoint
  IsMonotonic : Bool
deriving DecidableEq

structure Histogram where
  DataPoints : Slice HistogramDataPoint
deriving DecidableEq

structure ExponentialHistogram where
  DataPoints : Slice ExponentialHistogramDataPoint
deriving DecidableEq

structure Summary where
  DataPoints : Slice SummaryDataPoint
deriving DecidableEq

/-- Go `type MetricType int32`. -/
abbrev MetricType := Int

def MetricTypeEmpty : MetricType := 0
def MetricTypeGauge : MetricType := 1
def MetricTypeSum : MetricType := 2
def MetricTypeHistogram : MetricType := 3
def MetricTypeExponentialHistogram : MetricType := 4
def MetricTypeSummary : MetricType := 5

/-- The `data` oneof of a metric: unset, or exactly one kind. -/
inductive MetricData where
  | unset
  | gauge (g : Gauge)
  | sum (s : Sum)
  | histogram (h : Histogram)
  | exponentialHistogram (e : ExponentialHistogram)
  | summary (s : Summary)
deriving DecidableEq

structure Metric where
  Name : String
  Description : String
  Unit : String
  data : MetricData
deriving DecidableEq

/-- Go `Metric.Type()`. -/
def Metric.Type (m : Metric) : MetricType :=
  match m.data with
  | .unset => MetricTypeEmpty
  | .gauge _ => MetricTypeGauge
  | .sum _ => MetricTypeSum
  | .histogram _ => MetricTypeHistogram
  | .exponentialHistogram _ => MetricTypeExponentialHistogram
  | .summary _ => MetricTypeSummary

/-- Go `Metric.Gauge()`; there is no gauge to read on another kind. -/
def Metric.Gauge (m : Metric) : Option Gauge :=
  match m.data with
  | .gauge g => some g
  | _ => none

/-- Go `Metric.Sum()`. -/
def Metric.Sum (m : Metric) : Option Sum :=
  match m.data with
  | .sum s => some s
  | _ => none

/-- Go `Metric.Histogram()`. -/
def Metric.Histogram (m : Metric) : Option Histogram :=
  match m.data with
  | .histogram h => some h
  | _ => none

/-- Go `Metric.ExponentialHistogram()`. -/
def Metric.ExponentialHistogram (m : Metric) : Option ExponentialHistogram :=
  match m.data with
  | .exponentialHistogram e => some e
  | _ => none

/-- Go `Metric.Summary()`. -/
def Metric.Summary (m : Metric) : Option Summary :=
  match m.data with
  | .summary s => some s
  | _ => none

structure ScopeMetrics where
  ScopeName : String
  SchemaUrl : String
  Metrics : Slice Metric
deriving DecidableEq

structure ResourceMetrics where
  ResourceAttributes : List (String × String)
  SchemaUrl : String
  ScopeMetrics : Slice ScopeMetrics
deriving DecidableEq

structure Metrics where
  ResourceMetrics : Slice ResourceMetrics
deriving DecidableEq

/-- A leaf of the hierarchy: one data point of one of the kinds. -/
inductive DataPoint where
  | number (p : NumberDataPoint)
  | histogram (p : HistogramDataPoint)
  | exponentialHistogram (p : ExponentialHistogramDataPoint)
  | summary (p : SummaryDataPoint)
deriving DecidableEq

/-- The leaf data points a metric holds, in order. -/
def Metric.leaves (m : Metric) : List DataPoint :=
  match m.data with
  | .unset => []
  | .gauge g => g.DataPoints.items.map DataPoint.number
  | .sum s => s.DataPoints.items.map DataPoint.number
  | .histogram h => h.DataPoints.items.map DataPoint.histogram
  | .exponentialHistogram e => e.DataPoints.items.map DataPoint.exponentialHistogram
  | .summary s => s.DataPoints.items.map DataPoint.summary

/-- The leaf data points below a scope. -/
def ScopeMetrics.leaves (sm : ScopeMetrics) : List DataPoint :=
  (sm.Metrics.items.map Metric.leaves).flatten

/-- The leaf data points below a resource. -/
def ResourceMetrics.leaves (rm : ResourceMetrics) : List DataPoint :=
  (rm.ScopeMetrics.items.map ScopeMetrics.leaves).flatten

/-- The leaf data points of a whole container. -/
def Metrics.leaves (md : Metrics) : List DataPoint :=
  (md.ResourceMetrics.items.map ResourceMetrics.leaves).flatten

/-- Modelled from the spec: `Metrics.DataPointCount()` of `pmetric` is not in
`metrics_sizer.go`.  The spec gives the container-level count as "the
pipeline's total leaf data-point count", "one unit per leaf data point". -/
def Metrics.DataPointCount (md : Metrics) : Int := md.leaves.length

end pmetric

/-! ## Count strategy -/

namespace MetricsCountSizer

open pmetric

/-- Source: `func (s *MetricsCountSizer) MetricSize(m pmetric.Metric) int`,
a switch on `m.Type()` with `return 0` after it. -/
def MetricSize (m : Metric) : Option Int :=
  if m.Type = MetricTypeGauge then
    m.Gauge.map fun g => g.DataPoints.Len
  else if m.Type = MetricTypeSum then
    m.Sum.map fun s => s.DataPoints.Len
  else if m.Type = MetricTypeHistogram then
    m.Histogram.map fun h => h.DataPoints.Len
  else if m.Type = MetricTypeExponentialHistogram then
    m.ExponentialHistogram.map fun e => e.DataPoints.Len
  else if m.Type = MetricTypeSummary then
    m.Summary.map fun s => s.DataPoints.Len
  else
    some 0

/-- Source: `ScopeMetricsSize`,
`for i := 0; i < sm.Metrics().Len(); i++ { count += s.MetricSize(sm.Metrics().At(i)) }`
and `return count`, with `count` starting at 0. -/
def ScopeMetricsSize (sm : ScopeMetrics) : Option Int :=
  (List.range sm.Metrics.Len.toNat).foldlM
    (fun (count : Int) (i : Nat) => do
      let m ← sm.Metrics.At i
      let n ← MetricSize m
      pure (count + n))
    0

/-- Source: `ResourceMetricsSize`,
`for i := 0; i < rm.ScopeMetrics().Len(); i++ { count += s.ScopeMetricsSize(rm.ScopeMetrics().At(i)) }`
and `return count`, with `count` starting at 0. -/
def ResourceMetricsSize (rm : ResourceMetrics) : Option Int :=
  (List.range rm.ScopeMetrics.Len.toNat).foldlM
    (fun (count : Int) (i : Nat) => do
      let sm ← rm.ScopeMetrics.At i
      let n ← ScopeMetricsSize sm
      pure (count + n))
    0

/-- Source: `MetricsSize`, `return md.DataPointCount()`. -/
def MetricsSize (md : Metrics) : Int := md.DataPointCount

/-- Source: `func (s *MetricsCountSizer) DeltaSize(newItemSize int) int`,
`return newItemSize`. -/
def DeltaSize (newItemSize : Int) : Int := newItemSize

end MetricsCountSizer

/-! ## Appending to a repeated sub-message field -/

/-- Modelled from the spec: the wire encoding itself is outside
`metrics_sizer.go`.  The spec gives it as "each repeated sub-message [is]
`tag + varint(length) + payload`", with a single tag byte. -/
def encodeRepeated (tag : Nat) (payloads : List (List Nat)) : List Nat :=
  (payloads.map fun p => tag :: (varintEncode p.length ++ p)).flatten

/-- The running total of the comment on `DeltaSize`:
`currSize := (prevSize + sizer.DeltaSize(proto2.Size()))`, once per appended
item, in Go `int` arithmetic. -/
def accumulate (prevSize : Int) (sizes : List Int) : Int :=
  sizes.foldl (fun currSize s => intAdd currSize (MetricsBytesSizer.DeltaSize s)) prevSize

/-- Spec side of the delta law: the size of the assembled container is the
size it had without the items plus `1 + varintLength(s) + s` per item of
standalone size `s`. -/
def assembledSize (prevSize : Nat) (sizes : List Nat) : Int :=
  ((prevSize + (sizes.map fun s => 1 + varintLength s + s).sum : Nat) : Int)

/-- Modelled from the spec: `pmetric.ProtoMarshaler`, which `MetricsBytesSizer`
embeds, is not in `metrics_sizer.go`.  The spec gives its sizes as "the
serialization library's own compute serialized length primitive"; here the
library's encoder of one resource sub-tree is a field, and the single tag
byte of the container's repeated resource field another. -/
structure ProtoMarshaler where
  resourceTag : Nat
  marshalResource : pmetric.ResourceMetrics → List Nat

/-- Modelled from the spec: `ProtoMarshaler.ResourceMetricsSize`, "exact
serialized length of this sub-tree". -/
def ProtoMarshaler.ResourceMetricsSize (p : ProtoMarshaler)
    (rm : pmetric.ResourceMetrics) : Int :=
  (p.marshalResource rm).length

/-- Modelled from the spec: the encoding of a container, whose resources are
its repeated sub-message field. -/
def ProtoMarshaler.marshalMetrics (p : ProtoMarshaler) (md : pmetric.Metrics) : List Nat :=
  encodeRepeated p.resourceTag (md.ResourceMetrics.items.map p.marshalResource)

/-- Modelled from the spec: `ProtoMarshaler.MetricsSize`, the exact
serialized length of the container. -/
def ProtoMarshaler.MetricsSize (p : ProtoMarshaler) (md : pmetric.Metrics) : Int :=
  (p.marshalMetrics md).length

/-! ## Sample data -/

open pmetric in
/-- A number data point with the given value. -/
def samplePoint (v : Int) : NumberDataPoint := ⟨[], 0, 0, v⟩

open pmetric in
/-- A gauge metric with two data points. -/
def sampleGauge : Metric := ⟨"g", "", "", .gauge ⟨⟨[samplePoint 1, samplePoint 2]⟩⟩⟩

open pmetric in
/-- A scope with three gauge metrics of two data points each. -/
def sampleScope : ScopeMetrics := ⟨"s", "", ⟨[sampleGauge, sampleGauge, sampleGauge]⟩⟩

open pmetric in
/-- A resource with one scope. -/
def sampleResource : ResourceMetrics := ⟨[], "", ⟨[sampleScope]⟩⟩

open pmetric in
/-- The container of the spec's scenario: 2 resources, each with 1 scope,
each with 3 gauge metrics of 2 data points. -/
def sampleMetrics : Metrics := ⟨⟨[sampleResource, sampleResource]⟩⟩

/-- A marshaler for the examples: tag byte `0x0A`, and a resource encoded as
one zero byte per scope. -/
def sampleMarshaler : ProtoMarshaler :=
  ⟨10, fun rm => List.replicate rm.ScopeMetrics.items.length 0⟩

/-! ## Count strategy: leaf operations and the loop, step by step -/

namespace MetricsCountSizer

open pmetric

/-- Source: `NumberDataPointSize(_ pmetric.NumberDataPoint) int`, `return 1`. -/
def NumberDataPointSize (_ : NumberDataPoint) : Int := 1

/-- Source: `HistogramDataPointSize(_ pmetric.HistogramDataPoint) int`,
`return 1`. -/
def HistogramDataPointSize (_ : HistogramDataPoint) : Int := 1

/-- Source: `ExponentialHistogramDataPointSize(_
pmetric.ExponentialHistogramDataPoint) int`, `return 1`. -/
def ExponentialHistogramDataPointSize (_ : ExponentialHistogramDataPoint) : Int := 1

/-- Source: `SummaryDataPointSize(_ pmetric.SummaryDataPoint) int`,
`return 1`. -/
def SummaryDataPointSize (_ : SummaryDataPoint) : Int := 1

/-- The leaf operation that applies to a data point, by its kind. -/
def DataPointSize : DataPoint → Int
  | .number p => NumberDataPointSize p
  | .histogram p => HistogramDataPointSize p
  | .exponentialHistogram p => ExponentialHistogramDataPointSize p
  | .summary p => SummaryDataPointSize p

/-- How a run of a loop ends: with the value of `count`, in a panic, or
still running when the allowed number of condition tests is used up. -/
inductive Outcome where
  | value (count : Int)
  | panicked
  | running
deriving DecidableEq

/-- The statement `for ; i < s.Len(); i++ { count += size(s.At(i)) }` followed
by `return count`, executed test by test from the current `i` and `count`,
for at most `fuel` tests of the condition. -/
def forLoop {α : Type} (s : Slice α) (size : α → Option Int) :
    Nat → Int → Int → Outcome
  | 0, _, _ => Outcome.running
  | fuel + 1, i, count =>
    if i < s.Len then
      match s.At i with
      | none => Outcome.panicked
      | some x =>
        match size x with
        | none => Outcome.panicked
        | some n => forLoop s size fuel (i + 1) (count + n)
    else Outcome.value count

end MetricsCountSizer

/-! ## Machine integer lemmas -/

theorem wrapInt_of_isInt (x : Int) (h : isInt x) : wrapInt x = x := by
  unfold isInt minInt maxInt at h
  unfold wrapInt
  omega

theorem wrapInt_isInt (x : Int) : isInt (wrapInt x) := by
  unfold isInt minInt maxInt wrapInt
  omega

theorem uint64_of_nonneg (n : Int) (h0 : 0 ≤ n) (h1 : n ≤ maxInt) :
    uint64 n = n.toNat := by
  unfold maxInt at h1
  unfold uint64
  congr 1
  omega

theorem uint64_of_neg (n : Int) (h0 : n < 0) (h1 : minInt ≤ n) :
    (uint64 n : Int) = n + 2 ^ 64 := by
  unfold minInt at h1
  unfold uint64
  omega

/-! ## Bit length and varint length -/

theorem bitLenAux_zero (fuel : Nat) : bitLenAux fuel 0 = 0 := by
  cases fuel <;> simp [bitLenAux]

theorem bitLenAux_le (fuel x : Nat) : bitLenAux fuel x ≤ fuel := by
  induction fuel generalizing x with
  | zero => simp [bitLenAux]
  | succ k ih =>
    unfold bitLenAux
    split
    · omega
    · have := ih (x / 2)
      omega

theorem bitLenAux_bounds (fuel x : Nat) (hx : x < 2 ^ fuel) :
    x < 2 ^ bitLenAux fuel x ∧ (x ≠ 0 → 2 ^ bitLenAux fuel x ≤ 2 * x) := by
  induction fuel generalizing x with
  | zero =>
    have : x = 0 := by simpa using hx
    subst this
    simp [bitLenAux]
  | succ k ih =>
    unfold bitLenAux
    split
    · next h0 => subst h0; simp
    · next h0 =>
      have hx2 : x / 2 < 2 ^ k := by
        rw [pow_succ] at hx
        omega
      obtain ⟨h1, h2⟩ := ih (x / 2) hx2
      have hp : 2 ^ (1 + bitLenAux k (x / 2)) = 2 * 2 ^ bitLenAux k (x / 2) := by
        rw [pow_add, pow_one]
      rw [hp]
      refine ⟨by omega, fun _ => ?_⟩
      by_cases hz : x / 2 = 0
      · rw [hz, bitLenAux_zero]
        simp
        omega
      · have := h2 hz
        omega

theorem pow128_eq (k : Nat) : 128 ^ k = 2 ^ (7 * k) := by
  rw [pow_mul]
  norm_num

/-- The spec's `⌈bitlength/7⌉` is at most `k` exactly when the value is below
`128^k`. -/
theorem sov_le_iff (x k : Nat) (hx : x < 2 ^ 64) (hk : 1 ≤ k) :
    sov x ≤ (k : Int) ↔ x < 128 ^ k := by
  unfold sov
  by_cases h0 : x = 0
  · subst h0
    simp only [if_true]
    constructor
    · intro _; positivity
    · intro _; exact_mod_cast hk
  · rw [if_neg h0]
    obtain ⟨h1, h2⟩ := bitLenAux_bounds 64 x hx
    have h2 := h2 h0
    change x < 2 ^ bitLen x at h1
    change 2 ^ bitLen x ≤ 2 * x at h2
    rw [pow128_eq]
    have hdiv : (((bitLen x + 6) / 7 : Nat) : Int) ≤ (k : Int) ↔ bitLen x ≤ 7 * k := by
      rw [Int.ofNat_le]
      omega
    rw [hdiv]
    constructor
    · intro hb
      exact lt_of_lt_of_le h1 (Nat.pow_le_pow_right (by norm_num) hb)
    · intro hlt
      by_contra hb
      have hb : 7 * k + 1 ≤ bitLen x := by omega
      have h3 : 2 ^ (7 * k + 1) ≤ 2 ^ bitLen x := Nat.pow_le_pow_right (by norm_num) hb
      rw [pow_succ] at h3
      omega

theorem sov_pos (x : Nat) : 1 ≤ sov x := by
  unfold sov
  split
  · exact le_refl _
  · next h0 =>
    have : 1 ≤ bitLen x := by
      unfold bitLen bitLenAux
      rw [if_neg h0]
      omega
    have : 1 ≤ (bitLen x + 6) / 7 := by omega
    exact_mod_cast this

theorem sov_le_ten (x : Nat) : sov x ≤ 10 := by
  unfold sov
  split
  · norm_num
  · have := bitLenAux_le 64 x
    change bitLen x ≤ 64 at this
    have : (bitLen x + 6) / 7 ≤ 10 := by omega
    exact_mod_cast this

theorem varintEncodeAux_length_pos (fuel x : Nat) (hf : 1 ≤ fuel) :
    1 ≤ (varintEncodeAux fuel x).length := by
  obtain ⟨k, rfl⟩ : ∃ k, fuel = k + 1 := ⟨fuel - 1, by omega⟩
  unfold varintEncodeAux
  split <;> simp

theorem varintEncodeAux_length_le_iff (fuel x k : Nat) (hx : x < 128 ^ fuel) (hk : 1 ≤ k) :
    (varintEncodeAux fuel x).length ≤ k ↔ x < 128 ^ k := by
  induction fuel generalizing x k with
  | zero =>
    have : x = 0 := by simpa using hx
    subst this
    simp [varintEncodeAux]
  | succ f ih =>
    unfold varintEncodeAux
    have h128 : 128 ^ 1 ≤ 128 ^ k := Nat.pow_le_pow_right (by norm_num) hk
    split
    · next hlt =>
      simp only [List.length_singleton]
      constructor
      · intro _; omega
      · intro _; exact hk
    · next hge =>
      have hf : 1 ≤ f := by
        by_contra hf0
        have : f = 0 := by omega
        subst this
        simp at hx
        omega
      have hx2 : x / 128 < 128 ^ f := by
        rw [pow_succ] at hx
        exact Nat.div_lt_of_lt_mul (by rw [Nat.mul_comm]; exact hx)
      have hpos := varintEncodeAux_length_pos f (x / 128) hf
      simp only [List.length_cons]
      by_cases hk1 : k = 1
      · subst hk1
        constructor
        · intro h; omega
        · intro h; simp at h; omega
      · obtain ⟨j, rfl⟩ : ∃ j, k = j + 1 := ⟨k - 1, by omega⟩
        have hj : 1 ≤ j := by omega
        have := ih (x / 128) j hx2 hj
        rw [pow_succ, ← Nat.div_lt_iff_lt_mul (by norm_num : 0 < 128), ← this]
        omega

/-- Reading back the encoding of a `uint64` gives the value. -/
theorem varintDecode_encodeAux (fuel x : Nat) (hx : x < 128 ^ fuel) :
    varintDecode (varintEncodeAux fuel x) = x := by
  induction fuel generalizing x with
  | zero =>
    have : x = 0 := by simpa using hx
    subst this
    rfl
  | succ f ih =>
    unfold varintEncodeAux
    split
    · simp only [varintDecode]
      omega
    · have hx2 : x / 128 < 128 ^ f := by
        rw [pow_succ] at hx
        exact Nat.div_lt_of_lt_mul (by rw [Nat.mul_comm]; exact hx)
      simp only [varintDecode, ih (x / 128) hx2]
      omega

theorem varintDecode_encode (x : Nat) (hx : x < 2 ^ 64) :
    varintDecode (varintEncode x) = x :=
  varintDecode_encodeAux 10 x (lt_trans hx (by norm_num))

theorem varintLength_pos (x : Nat) : 1 ≤ varintLength x :=
  varintEncodeAux_length_pos 10 x (by norm_num)

theorem varintLength_le_iff (x k : Nat) (hx : x < 2 ^ 64) (hk : 1 ≤ k) :
    varintLength x ≤ k ↔ x < 128 ^ k :=
  varintEncodeAux_length_le_iff 10 x k (lt_trans hx (by norm_num)) hk

/-- On a `uint64`, the spec's `⌈bitlength/7⌉` is the number of bytes of the
base-128 varint encoding. -/
theorem sov_eq_varintLength (x : Nat) (hx : x < 2 ^ 64) :
    sov x = (varintLength x : Int) := by
  have hL := varintLength_pos x
  have hs := sov_pos x
  apply le_antisymm
  · exact (sov_le_iff x (varintLength x) hx hL).2
      ((varintLength_le_iff x (varintLength x) hx hL).1 (le_refl _))
  · obtain ⟨k, hk⟩ : ∃ k : Nat, sov x = (k : Int) := ⟨(sov x).toNat, by omega⟩
    have hk1 : 1 ≤ k := by omega
    rw [hk]
    have h1 : x < 128 ^ k := (sov_le_iff x k hx hk1).1 (by omega)
    exact_mod_cast (varintLength_le_iff x k hx hk1).2 h1

/-- The numeric thresholds of `sov` on a `uint64`. -/
theorem sov_thresholds (x : Nat) (hx : x < 2 ^ 64) :
    1 ≤ sov x ∧ sov x ≤ 10 ∧
    (sov x ≤ 1 ↔ x < 128) ∧
    (sov x ≤ 2 ↔ x < 16384) ∧
    (sov x ≤ 3 ↔ x < 2097152) ∧
    (sov x ≤ 4 ↔ x < 268435456) ∧
    (sov x ≤ 5 ↔ x < 34359738368) ∧
    (sov x ≤ 6 ↔ x < 4398046511104) ∧
    (sov x ≤ 7 ↔ x < 562949953421312) ∧
    (sov x ≤ 8 ↔ x < 72057594037927936) ∧
    (sov x ≤ 9 ↔ x < 9223372036854775808) := by
  refine ⟨sov_pos x, sov_le_ten x, ?_, ?_, ?_, ?_, ?_, ?_, ?_, ?_, ?_⟩
  · simpa using sov_le_iff x 1 hx (by norm_num)
  · simpa using sov_le_iff x 2 hx (by norm_num)
  · simpa using sov_le_iff x 3 hx (by norm_num)
  · simpa using sov_le_iff x 4 hx (by norm_num)
  · simpa using sov_le_iff x 5 hx (by norm_num)
  · simpa using sov_le_iff x 6 hx (by norm_num)
  · simpa using sov_le_iff x 7 hx (by norm_num)
  · simpa using sov_le_iff x 8 hx (by norm_num)
  · simpa using sov_le_iff x 9 hx (by norm_num)

/-! ## Byte strategy: `DeltaSize` -/

theorem bytes_DeltaSize_eq_of_fit (n : Int) (h0 : 0 ≤ n)
    (hfit : 1 + n + sov n.toNat ≤ maxInt) :
    MetricsBytesSizer.DeltaSize n = 1 + n + sov n.toNat := by
  have hs := sov_pos n.toNat
  have hn : n ≤ maxInt := by omega
  unfold MetricsBytesSizer.DeltaSize intAdd
  rw [uint64_of_nonneg n h0 hn]
  unfold maxInt at hfit hn
  rw [wrapInt_of_isInt (1 + n) (by unfold isInt minInt maxInt; omega)]
  rw [wrapInt_of_isInt _ (by unfold isInt minInt maxInt; omega)]

theorem toNat_lt_uint64 (n : Int) (h1 : n ≤ maxInt) : n.toNat < 2 ^ 64 := by
  unfold maxInt at h1
  omega

/-- Claim C1: for an item size `n` with `0 <= n` and `1 + n + 10` within the
`int` range, `MetricsBytesSizer.DeltaSize(n)` is one tag byte plus the
payload plus the number of bytes of the base-128 varint encoding of `n`. -/
theorem bytes_DeltaSize_tag_payload_varint (n : Int) (h0 : 0 ≤ n)
    (h1 : 1 + n + 10 ≤ maxInt) :
    MetricsBytesSizer.DeltaSize n = 1 + n + ((varintEncode n.toNat).length : Int) := by
  have h10 := sov_le_ten n.toNat
  have hn : n ≤ maxInt := by omega
  rw [bytes_DeltaSize_eq_of_fit n h0 (by omega),
    sov_eq_varintLength n.toNat (toNat_lt_uint64 n hn)]
  rfl

theorem bytes_DeltaSize_tag_payload_varint_witness :
    (0 : Int) ≤ 300 ∧ (1 : Int) + 300 + 10 ≤ maxInt ∧
    MetricsBytesSizer.DeltaSize 300 = 1 + 300 + ((varintEncode (300 : Int).toNat).length : Int) :=
  ⟨by decide, by decide, bytes_DeltaSize_tag_payload_varint 300 (by decide) (by decide)⟩

/-! ## Byte strategy: the delta law -/

/-- The formula of `assembledSize` is the length of the encoded entries. -/
theorem encodeRepeated_length (tag : Nat) (payloads : List (List Nat)) :
    (encodeRepeated tag payloads).length =
      (payloads.map fun p => 1 + varintLength p.length + p.length).sum := by
  induction payloads with
  | nil => rfl
  | cons p ps ih =>
    unfold encodeRepeated at ih ⊢
    simp only [List.map_cons, List.flatten_cons, List.length_append, List.length_cons,
      List.sum_cons, ih]
    unfold varintLength
    omega

theorem assembledSize_cons (prevSize s : Nat) (rest : List Nat) :
    assembledSize prevSize (s :: rest) =
      assembledSize (prevSize + (1 + varintLength s + s)) rest := by
  unfold assembledSize
  simp only [List.map_cons, List.sum_cons]
  congr 1
  omega

theorem assembledSize_mono (prevSize : Nat) (sizes : List Nat) :
    (prevSize : Int) ≤ assembledSize prevSize sizes := by
  unfold assembledSize
  exact_mod_cast Nat.le_add_right _ _

theorem bytes_DeltaSize_ofNat (s : Nat) (h : (1 : Int) + s + varintLength s ≤ maxInt) :
    MetricsBytesSizer.DeltaSize (s : Int) = 1 + s + varintLength s := by
  have hs : (s : Int) ≤ maxInt := by omega
  have hsov : sov s = (varintLength s : Int) :=
    sov_eq_varintLength s (by simpa using toNat_lt_uint64 (s : Int) hs)
  have h1 := bytes_DeltaSize_eq_of_fit (s : Int) (Int.ofNat_nonneg s)
  rw [Int.toNat_ofNat, hsov] at h1
  exact h1 h

theorem bytes_DeltaSize_ofNat_of_room (s : Nat) (h : (1 : Int) + s + 10 ≤ maxInt) :
    MetricsBytesSizer.DeltaSize (s : Int) = 1 + s + varintLength s := by
  have hs : (s : Int) ≤ maxInt := by omega
  have h10 := sov_le_ten s
  rw [sov_eq_varintLength s (by simpa using toNat_lt_uint64 (s : Int) hs)] at h10
  exact bytes_DeltaSize_ofNat s (by omega)

theorem accumulate_eq_assembledSize (sizes : List Nat) :
    ∀ prevSize : Nat, assembledSize prevSize sizes ≤ maxInt →
      accumulate prevSize (sizes.map Int.ofNat) = assembledSize prevSize sizes := by
  induction sizes with
  | nil =>
    intro prevSize _
    simp [accumulate, assembledSize]
  | cons s rest ih =>
    intro prevSize hfit
    rw [assembledSize_cons] at hfit ⊢
    have hmono := assembledSize_mono (prevSize + (1 + varintLength s + s)) rest
    have hle : ((prevSize + (1 + varintLength s + s) : Nat) : Int) ≤ maxInt :=
      le_trans hmono hfit
    push_cast at hle
    have hd := bytes_DeltaSize_ofNat s (by omega)
    have hstep : intAdd (prevSize : Int) (MetricsBytesSizer.DeltaSize (s : Int)) =
        ((prevSize + (1 + varintLength s + s) : Nat) : Int) := by
      rw [hd]
      unfold intAdd
      rw [wrapInt_of_isInt _ (by unfold isInt minInt; unfold maxInt at hle ⊢; omega)]
      push_cast
      omega
    rw [← ih _ hfit]
    unfold accumulate
    rw [List.map_cons, List.foldl_cons, show Int.ofNat s = (s : Int) from rfl, hstep]

theorem assembledSize_eq (prevSize : Nat) (sizes : List Nat) :
    assembledSize prevSize sizes =
      prevSize + ((sizes.map fun s => (1 + varintLength s + s : Int)).sum) := by
  induction sizes generalizing prevSize with
  | nil => simp [assembledSize]
  | cons s rest ih =>
    rw [assembledSize_cons, ih]
    simp only [List.map_cons, List.sum_cons]
    push_cast
    omega

/-- Claim C2: for non-negative standalone item sizes appended one by one to a
repeated sub-message field with a single-byte tag, starting from the size of
the container without the items and adding `MetricsBytesSizer.DeltaSize(si)`
at each append gives the size of the assembled container,
`prevSize + Σ (1 + varintLength(si) + si)`, that size being an `int`; one
append gives `prevSize + DeltaSize(s)`, and the law holds on the sizes
0, 1, 127, 128, 16383 and 16384. -/
theorem bytes_delta_accumulation (prevSize : Nat) (sizes : List Nat)
    (hfit : assembledSize prevSize sizes ≤ maxInt) :
    accumulate prevSize (sizes.map Int.ofNat) = assembledSize prevSize sizes ∧
    assembledSize prevSize sizes =
      prevSize + ((sizes.map fun s => (1 + varintLength s + s : Int)).sum) ∧
    (∀ s : Nat, sizes = [s] →
      accumulate prevSize [(s : Int)] = prevSize + MetricsBytesSizer.DeltaSize s) ∧
    accumulate 0 [0, 1, 127, 128, 16383, 16384] = 33039 ∧
    assembledSize 0 [0, 1, 127, 128, 16383, 16384] = 33039 := by
  have hmain := accumulate_eq_assembledSize sizes prevSize hfit
  refine ⟨hmain, ?_, ?_, ?_, by rfl⟩
  · exact assembledSize_eq prevSize sizes
  · intro s hs
    subst hs
    have hle : (1 : Int) + s + varintLength s ≤ maxInt := by
      have := hfit
      unfold assembledSize at this
      simp only [List.map_cons, List.map_nil, List.sum_cons, List.sum_nil] at this
      push_cast at this
      omega
    have hd := bytes_DeltaSize_ofNat s hle
    rw [show accumulate prevSize [(s : Int)] =
      accumulate prevSize ([s].map Int.ofNat) from rfl, hmain, hd]
    unfold assembledSize
    simp only [List.map_cons, List.map_nil, List.sum_cons, List.sum_nil]
    push_cast
    omega
  · have h := accumulate_eq_assembledSize [0, 1, 127, 128, 16383, 16384] 0 (by decide)
    rw [show assembledSize 0 [0, 1, 127, 128, 16383, 16384] = 33039 from rfl] at h
    exact h

theorem bytes_delta_accumulation_witness :
    assembledSize 10 [0, 128, 16384] ≤ maxInt ∧
    accumulate (10 : Nat) ([0, 128, 16384].map Int.ofNat) = assembledSize 10 [0, 128, 16384] :=
  ⟨by decide, (bytes_delta_accumulation 10 [0, 128, 16384] (by decide)).1⟩

/-! ## Byte strategy: the length prefix -/

/-- On a `uint64`, `bitLen` is the bit length `Nat.size`. -/
theorem bitLen_eq_size (x : Nat) (hx : x < 2 ^ 64) : bitLen x = Nat.size x := by
  by_cases h0 : x = 0
  · subst h0
    simp [bitLen, bitLenAux_zero]
  · obtain ⟨h1, h2⟩ := bitLenAux_bounds 64 x hx
    have h2 := h2 h0
    change x < 2 ^ bitLen x at h1
    change 2 ^ bitLen x ≤ 2 * x at h2
    apply le_antisymm
    · by_contra hlt
      have hlt : Nat.size x + 1 ≤ bitLen x := by omega
      have h3 : 2 ^ (Nat.size x + 1) ≤ 2 ^ bitLen x := Nat.pow_le_pow_right (by norm_num) hlt
      have h4 := Nat.lt_size_self x
      rw [pow_succ] at h3
      omega
    · exact Nat.size_le.2 h1

theorem ceil_div_seven (b : Nat) : ⌈(b : ℚ) / 7⌉₊ = (b + 6) / 7 := by
  apply le_antisymm
  · apply Nat.ceil_le.2
    rw [div_le_iff₀ (by norm_num : (0 : ℚ) < 7)]
    have : b ≤ (b + 6) / 7 * 7 := by omega
    exact_mod_cast this
  · have h := Nat.le_ceil ((b : ℚ) / 7)
    rw [div_le_iff₀ (by norm_num : (0 : ℚ) < 7)] at h
    have h : b ≤ ⌈(b : ℚ) / 7⌉₊ * 7 := by exact_mod_cast h
    omega

/-- Claim C3: the length-prefix term `sov(uint64(n))` that
`MetricsBytesSizer.DeltaSize` adds for a non-negative item size `n` is the
least `k >= 1` with `n < 128^k`; it is `⌈bitlength(n)/7⌉` for `n > 0` and 1 for
`n = 0`; it is 1 below 128, 2 from 128 to 16383 and 3 at 16384, which gives the
listed values of `DeltaSize`. -/
theorem bytes_length_term (n : Int) (h0 : 0 ≤ n) (h1 : n ≤ maxInt) :
    IsLeast {k : Nat | 1 ≤ k ∧ n < 128 ^ k} (sov (uint64 n)).toNat ∧
    (1 + n + 10 ≤ maxInt → MetricsBytesSizer.DeltaSize n = 1 + n + sov (uint64 n)) ∧
    (0 < n → sov (uint64 n) = (⌈(Nat.size n.toNat : ℚ) / 7⌉₊ : Int)) ∧
    (n = 0 → sov (uint64 n) = 1) ∧
    (n < 128 → sov (uint64 n) = 1) ∧
    (128 ≤ n → n < 16384 → sov (uint64 n) = 2) ∧
    (n = 16384 → sov (uint64 n) = 3) ∧
    MetricsBytesSizer.DeltaSize 0 = 2 ∧
    MetricsBytesSizer.DeltaSize 1 = 3 ∧
    MetricsBytesSizer.DeltaSize 127 = 129 ∧
    MetricsBytesSizer.DeltaSize 128 = 131 ∧
    MetricsBytesSizer.DeltaSize 16383 = 16386 ∧
    MetricsBytesSizer.DeltaSize 16384 = 16388 := by
  have hx := toNat_lt_uint64 n h1
  have hu := uint64_of_nonneg n h0 h1
  have hn : ((n.toNat : Nat) : Int) = n := Int.toNat_of_nonneg h0
  have hpos := sov_pos n.toNat
  have hth := sov_thresholds n.toNat hx
  rw [hu]
  refine ⟨⟨⟨by omega, ?_⟩, ?_⟩, ?_, ?_, ?_, ?_, ?_, ?_, by decide, by decide, by decide,
    by decide, by decide, by decide⟩
  · have hk : 1 ≤ (sov n.toNat).toNat := by omega
    have h := (sov_le_iff n.toNat (sov n.toNat).toNat hx hk).1 (by omega)
    rw [← hn]
    exact_mod_cast h
  · rintro j ⟨hj1, hj2⟩
    rw [← hn] at hj2
    have hj2 : n.toNat < 128 ^ j := by exact_mod_cast hj2
    have := (sov_le_iff n.toNat j hx hj1).2 hj2
    omega
  · intro hfit
    have h10 := sov_le_ten n.toNat
    exact bytes_DeltaSize_eq_of_fit n h0 (by omega)
  · intro hn0
    have hne : n.toNat ≠ 0 := by omega
    rw [ceil_div_seven, ← bitLen_eq_size n.toNat hx]
    unfold sov
    rw [if_neg hne]
  · intro hn0
    subst hn0
    rfl
  · intro hlt
    omega
  · intro hge hlt
    omega
  · intro heq
    omega

theorem bytes_length_term_witness :
    (0 : Int) ≤ 16384 ∧ (16384 : Int) ≤ maxInt ∧
    IsLeast {k : Nat | 1 ≤ k ∧ (16384 : Int) < 128 ^ k} (sov (uint64 16384)).toNat :=
  ⟨by decide, by decide, (bytes_length_term 16384 (by decide) (by decide)).1⟩

/-! ## Count strategy: the summing loops -/

open pmetric in
theorem Slice.At_natCast {α : Type} (s : Slice α) (i : Nat) :
    s.At (i : Int) = s.items.get? i := by
  unfold Slice.At Slice.Len
  by_cases h : i < s.items.length
  · rw [if_pos ⟨Int.ofNat_nonneg i, by exact_mod_cast h⟩, Int.toNat_ofNat]
  · rw [if_neg (by intro hc; exact h (by exact_mod_cast hc.2))]
    exact (List.get?_eq_none.2 (by omega)).symm

open pmetric in
/-- The loop `for i := i; i < Len(); i++ { count += f(At(i)) }` adds the sizes
of the elements from index `i` on. -/
theorem sizeLoop_from {α : Type} (s : Slice α) (f : α → Option Int) :
    ∀ (k i : Nat) (count : Int) (sizes : List Int), i + k = s.items.length →
      List.Forall₂ (fun x v => f x = some v) (s.items.drop i) sizes →
      (List.range' i k).foldlM (fun (count : Int) (i : Nat) => do
          let x ← s.At i
          let n ← f x
          pure (count + n)) count = some (count + sizes.sum) := by
  intro k
  induction k with
  | zero =>
    intro i count sizes hik h
    have hnil : s.items.drop i = [] := List.drop_eq_nil_of_le (by omega)
    rw [hnil] at h
    cases h
    simp
  | succ k ih =>
    intro i count sizes hik h
    have hi : i < s.items.length := by omega
    rw [List.drop_eq_getElem_cons hi] at h
    cases h with
    | cons hx hrest =>
      rename_i v vs
      rw [List.range'_succ, List.foldlM_cons, Slice.At_natCast, List.get?_eq_getElem?,
        List.getElem?_eq_getElem hi]
      simp only [Option.bind_eq_bind, Option.some_bind, hx, Option.pure_def]
      have h2 := ih (i + 1) (count + v) vs (by omega) hrest
      simp only [Option.bind_eq_bind, Option.pure_def] at h2
      rw [h2, List.sum_cons, add_assoc]

open pmetric in
/-- The loop shared by `ScopeMetricsSize` and `ResourceMetricsSize`:
`for i := 0; i < Len(); i++ { count += f(At(i)) }` from `count = 0` returns
the sum of the sizes of the elements. -/
theorem sizeLoop_eq {α : Type} (s : Slice α) (f : α → Option Int) (sizes : List Int)
    (h : List.Forall₂ (fun x v => f x = some v) s.items sizes) :
    (List.range s.Len.toNat).foldlM (fun (count : Int) (i : Nat) => do
        let x ← s.At i
        let n ← f x
        pure (count + n)) 0 = some sizes.sum := by
  have hlen : s.Len.toNat = s.items.length := by simp [Slice.Len]
  rw [hlen, List.range_eq_range', sizeLoop_from s f s.items.length 0 0 sizes (by omega)
    (by simpa using h), zero_add]

theorem forall₂_map_of_total {α : Type} (f : α → Option Int) (g : α → Int)
    (h : ∀ x, f x = some (g x)) (xs : List α) :
    List.Forall₂ (fun x v => f x = some v) xs (xs.map g) := by
  induction xs with
  | nil => exact List.Forall₂.nil
  | cons x xs ih => exact List.Forall₂.cons (h x) ih

theorem sum_map_length_flatten {α : Type} (ls : List (List α)) :
    ((ls.map fun l => (l.length : Int)).sum) = (ls.flatten.length : Int) := by
  induction ls with
  | nil => rfl
  | cons l ls ih =>
    simp only [List.map_cons, List.sum_cons, List.flatten_cons, List.length_append, ih]
    push_cast
    rfl

open pmetric MetricsCountSizer in
theorem MetricSize_eq_leaves (m : Metric) :
    MetricSize m = some (m.leaves.length : Int) := by
  obtain ⟨name, desc, unit, data⟩ := m
  cases data <;>
    simp [MetricSize, Metric.Type, Metric.leaves, Metric.Gauge, Metric.Sum, Metric.Histogram,
      Metric.ExponentialHistogram, Metric.Summary, Slice.Len, MetricTypeEmpty, MetricTypeGauge,
      MetricTypeSum, MetricTypeHistogram, MetricTypeExponentialHistogram, MetricTypeSummary]

open pmetric MetricsCountSizer in
theorem ScopeMetricsSize_eq_leaves (sm : ScopeMetrics) :
    ScopeMetricsSize sm = some (sm.leaves.length : Int) := by
  have h := sizeLoop_eq sm.Metrics MetricSize _
    (forall₂_map_of_total MetricSize (fun m => (m.leaves.length : Int)) MetricSize_eq_leaves
      sm.Metrics.items)
  unfold ScopeMetricsSize
  rw [h]
  unfold ScopeMetrics.leaves
  rw [← sum_map_length_flatten, List.map_map]
  rfl

open pmetric MetricsCountSizer in
theorem ResourceMetricsSize_eq_leaves (rm : ResourceMetrics) :
    ResourceMetricsSize rm = some (rm.leaves.length : Int) := by
  have h := sizeLoop_eq rm.ScopeMetrics ScopeMetricsSize _
    (forall₂_map_of_total ScopeMetricsSize (fun sm => (sm.leaves.length : Int))
      ScopeMetricsSize_eq_leaves rm.ScopeMetrics.items)
  unfold ResourceMetricsSize
  rw [h]
  unfold ResourceMetrics.leaves
  rw [← sum_map_length_flatten, List.map_map]
  rfl

/-! ## Count strategy: the claims -/

open pmetric MetricsCountSizer in
/-- Claim C4: `MetricsCountSizer.MetricSize(M)` is the number of data points
of the populated kind when that kind is Gauge, Sum, Histogram,
ExponentialHistogram or Summary, and 0 when the type of `M` is unset or any
value other than those five. -/
theorem count_MetricSize_points (m : Metric) :
    MetricSize m = some (match m.data with
      | .unset => 0
      | .gauge g => g.DataPoints.Len
      | .sum s => s.DataPoints.Len
      | .histogram h => h.DataPoints.Len
      | .exponentialHistogram e => e.DataPoints.Len
      | .summary s => s.DataPoints.Len) ∧
    MetricSize m = some (m.leaves.length : Int) ∧
    (m.Type ≠ MetricTypeGauge ∧ m.Type ≠ MetricTypeSum ∧ m.Type ≠ MetricTypeHistogram ∧
      m.Type ≠ MetricTypeExponentialHistogram ∧ m.Type ≠ MetricTypeSummary →
        MetricSize m = some 0) := by
  refine ⟨?_, MetricSize_eq_leaves m, ?_⟩
  · obtain ⟨name, desc, unit, data⟩ := m
    cases data <;>
      simp [MetricSize, Metric.Type, Metric.Gauge, Metric.Sum, Metric.Histogram,
        Metric.ExponentialHistogram, Metric.Summary, MetricTypeEmpty, MetricTypeGauge,
        MetricTypeSum, MetricTypeHistogram, MetricTypeExponentialHistogram, MetricTypeSummary]
  · rintro ⟨h1, h2, h3, h4, h5⟩
    unfold MetricSize
    rw [if_neg h1, if_neg h2, if_neg h3, if_neg h4, if_neg h5]

open pmetric MetricsCountSizer in
theorem count_MetricSize_points_witness :
    ((⟨"m", "", "", .unset⟩ : Metric).Type ≠ MetricTypeGauge ∧
      (⟨"m", "", "", .unset⟩ : Metric).Type ≠ MetricTypeSum ∧
      (⟨"m", "", "", .unset⟩ : Metric).Type ≠ MetricTypeHistogram ∧
      (⟨"m", "", "", .unset⟩ : Metric).Type ≠ MetricTypeExponentialHistogram ∧
      (⟨"m", "", "", .unset⟩ : Metric).Type ≠ MetricTypeSummary) ∧
    MetricSize ⟨"m", "", "", .unset⟩ = some 0 :=
  ⟨by decide, (count_MetricSize_points ⟨"m", "", "", .unset⟩).2.2 (by decide)⟩

open pmetric MetricsCountSizer in
/-- Claim C5: for the count strategy, `ResourceMetricsSize(R)` is the sum of
`ScopeMetricsSize(Si)` over the scopes of `R`, and `ScopeMetricsSize(S)` is
the sum of `MetricSize(Mj)` over the metrics of `S`; both are 0 when the
child sequence is empty. -/
theorem count_additivity_inner (rm : ResourceMetrics) (sm : ScopeMetrics) :
    (∃ sizes : List Int,
      List.Forall₂ (fun S v => ScopeMetricsSize S = some v) rm.ScopeMetrics.items sizes ∧
      ResourceMetricsSize rm = some sizes.sum) ∧
    (∃ sizes : List Int,
      List.Forall₂ (fun M v => MetricSize M = some v) sm.Metrics.items sizes ∧
      ScopeMetricsSize sm = some sizes.sum) ∧
    ResourceMetricsSize { rm with ScopeMetrics := ⟨[]⟩ } = some 0 ∧
    ScopeMetricsSize { sm with Metrics := ⟨[]⟩ } = some 0 := by
  refine ⟨⟨_, forall₂_map_of_total ScopeMetricsSize (fun S => (S.leaves.length : Int))
      ScopeMetricsSize_eq_leaves rm.ScopeMetrics.items, ?_⟩,
    ⟨_, forall₂_map_of_total MetricSize (fun M => (M.leaves.length : Int))
      MetricSize_eq_leaves sm.Metrics.items, ?_⟩, rfl, rfl⟩
  · exact sizeLoop_eq rm.ScopeMetrics ScopeMetricsSize _
      (forall₂_map_of_total ScopeMetricsSize (fun S => (S.leaves.length : Int))
        ScopeMetricsSize_eq_leaves rm.ScopeMetrics.items)
  · exact sizeLoop_eq sm.Metrics MetricSize _
      (forall₂_map_of_total MetricSize (fun M => (M.leaves.length : Int))
        MetricSize_eq_leaves sm.Metrics.items)

open pmetric MetricsCountSizer in
/-- Claim C6: for the count strategy, `MetricsSize(C)`, the data point count
of the container, is the sum of `ResourceMetricsSize(Ri)` over the resources
of `C`, the number of leaf data points of `C`; it is 12 for 2 resources, each
with 1 scope, each with 3 gauge metrics of 2 data points. -/
theorem count_MetricsSize_additive (md : Metrics) :
    (∃ sizes : List Int,
      List.Forall₂ (fun R v => ResourceMetricsSize R = some v) md.ResourceMetrics.items sizes ∧
      MetricsSize md = sizes.sum) ∧
    MetricsSize md = (md.leaves.length : Int) ∧
    MetricsSize sampleMetrics = 12 := by
  refine ⟨⟨_, forall₂_map_of_total ResourceMetricsSize (fun R => (R.leaves.length : Int))
      ResourceMetricsSize_eq_leaves md.ResourceMetrics.items, ?_⟩, rfl, by decide⟩
  unfold MetricsSize Metrics.DataPointCount Metrics.leaves
  rw [← sum_map_length_flatten, List.map_map]
  rfl

open pmetric MetricsCountSizer in
/-- Claim C9: for the count strategy, appending a metric `M` to a scope `S`
gives `ScopeMetricsSize(S) + DeltaSize(MetricSize(M))`, and appending a scope
`S` to a resource `R` gives
`ResourceMetricsSize(R) + DeltaSize(ScopeMetricsSize(S))`. -/
theorem count_append_delta (sm : ScopeMetrics) (m : Metric) (rm : ResourceMetrics)
    (s : ScopeMetrics) :
    (∃ a b : Int, ScopeMetricsSize sm = some a ∧ MetricSize m = some b ∧
      ScopeMetricsSize { sm with Metrics := sm.Metrics.append m } =
        some (a + MetricsCountSizer.DeltaSize b)) ∧
    (∃ a b : Int, ResourceMetricsSize rm = some a ∧ ScopeMetricsSize s = some b ∧
      ResourceMetricsSize { rm with ScopeMetrics := rm.ScopeMetrics.append s } =
        some (a + MetricsCountSizer.DeltaSize b)) := by
  refine ⟨⟨_, _, ScopeMetricsSize_eq_leaves sm, MetricSize_eq_leaves m, ?_⟩,
    ⟨_, _, ResourceMetricsSize_eq_leaves rm, ScopeMetricsSize_eq_leaves s, ?_⟩⟩
  · rw [ScopeMetricsSize_eq_leaves]
    simp [ScopeMetrics.leaves, Slice.append, MetricsCountSizer.DeltaSize]
  · rw [ResourceMetricsSize_eq_leaves]
    simp [ResourceMetrics.leaves, Slice.append, MetricsCountSizer.DeltaSize]

/-- Claim C10: `MetricsCountSizer.DeltaSize` is the identity on `int`. -/
theorem count_DeltaSize_identity (n : Int) : MetricsCountSizer.DeltaSize n = n := rfl

/-! ## Monotonicity of `DeltaSize` -/

theorem bytes_DeltaSize_neg (n : Int) (h0 : n < 0) (h1 : minInt ≤ n) :
    MetricsBytesSizer.DeltaSize n = n + 11 := by
  have hu := uint64_of_neg n h0 h1
  have hlt : uint64 n < 2 ^ 64 := by
    unfold minInt at h1
    have : (uint64 n : Int) < 2 ^ 64 := by omega
    exact_mod_cast this
  have hth := sov_thresholds (uint64 n) hlt
  have hge : ¬ uint64 n < 9223372036854775808 := by
    unfold minInt at h1
    intro hc
    have : (uint64 n : Int) < 9223372036854775808 := by exact_mod_cast hc
    omega
  have hs : sov (uint64 n) = 10 := by omega
  unfold MetricsBytesSizer.DeltaSize intAdd
  rw [hs]
  unfold minInt at h1
  unfold wrapInt
  omega

/-- Counterexample to claim C7 as stated: `-1 <= 0`, both are `int` values,
and the byte strategy gives `DeltaSize(-1) = 10 > 2 = DeltaSize(0)`. -/
theorem bytes_DeltaSize_not_monotone_on_int :
    isInt (-1) ∧ isInt 0 ∧ (-1 : Int) ≤ 0 ∧
    MetricsBytesSizer.DeltaSize (-1) = 10 ∧ MetricsBytesSizer.DeltaSize 0 = 2 ∧
    ¬ MetricsBytesSizer.DeltaSize (-1) ≤ MetricsBytesSizer.DeltaSize 0 := by
  decide

/-- Claim C7, amended: for `int` values `a <= b`, the count strategy has
`DeltaSize(a) <= DeltaSize(b)`; the byte strategy has it when `0 <= a` and
`b <= maxInt - 10` (no wrap-around), and when `b < 0`. -/
theorem deltaSize_monotone (a b : Int) (hab : a ≤ b) (ha : minInt ≤ a) (hb : b ≤ maxInt) :
    MetricsCountSizer.DeltaSize a ≤ MetricsCountSizer.DeltaSize b ∧
    (0 ≤ a → b + 10 ≤ maxInt →
      MetricsBytesSizer.DeltaSize a ≤ MetricsBytesSizer.DeltaSize b) ∧
    (b < 0 → MetricsBytesSizer.DeltaSize a ≤ MetricsBytesSizer.DeltaSize b) := by
  refine ⟨hab, ?_, ?_⟩
  · intro h0 hfit
    have hta := sov_thresholds a.toNat (toNat_lt_uint64 a (by omega))
    have htb := sov_thresholds b.toNat (toNat_lt_uint64 b hb)
    have hfb : 1 + b + sov b.toNat ≤ maxInt := by
      unfold maxInt at hfit ⊢
      omega
    have hfa : 1 + a + sov a.toNat ≤ maxInt := by
      unfold maxInt at hfit ⊢
      omega
    rw [bytes_DeltaSize_eq_of_fit a h0 hfa, bytes_DeltaSize_eq_of_fit b (by omega) hfb]
    omega
  · intro hneg
    rw [bytes_DeltaSize_neg a (by omega) ha, bytes_DeltaSize_neg b hneg (by omega)]
    omega

theorem deltaSize_monotone_witness :
    (127 : Int) ≤ 128 ∧ minInt ≤ 127 ∧ (128 : Int) ≤ maxInt ∧ (0 : Int) ≤ 127 ∧
    (128 : Int) + 10 ≤ maxInt ∧
    MetricsBytesSizer.DeltaSize 127 ≤ MetricsBytesSizer.DeltaSize 128 :=
  ⟨by decide, by decide, by decide, by decide, by decide,
    (deltaSize_monotone 127 128 (by decide) (by decide) (by decide)).2.1 (by decide)
      (by decide)⟩

/-! ## Byte strategy: the container and its resources -/

open pmetric in
theorem ProtoMarshaler.MetricsSize_eq (p : ProtoMarshaler) (md : Metrics) :
    p.MetricsSize md = ((md.ResourceMetrics.items.map fun rm =>
      1 + (varintLength (p.marshalResource rm).length : Int) +
        p.ResourceMetricsSize rm).sum) := by
  unfold ProtoMarshaler.MetricsSize ProtoMarshaler.marshalMetrics
    ProtoMarshaler.ResourceMetricsSize
  rw [encodeRepeated_length]
  induction md.ResourceMetrics.items with
  | nil => rfl
  | cons rm rest ih =>
    simp only [List.map_cons, List.sum_cons] at ih ⊢
    rw [Nat.cast_add, ih]
    push_cast
    rfl

open pmetric in
/-- Counterexample to claim C8 as stated: whatever the encoder of a resource
is, the serialized length of the container of two resources `sampleMetrics`
is not the sum of the serialized lengths of its resources, since each
resource is written with a tag byte and a length prefix. -/
theorem bytes_container_not_additive :
    ¬ ∃ p : ProtoMarshaler,
      p.MetricsSize sampleMetrics =
        (sampleMetrics.ResourceMetrics.items.map p.ResourceMetricsSize).sum := by
  rintro ⟨p, h⟩
  rw [ProtoMarshaler.MetricsSize_eq] at h
  simp only [sampleMetrics, List.map_cons, List.map_nil, List.sum_cons, List.sum_nil] at h
  omega

open pmetric in
/-- Claim C8, amended: for the byte strategy, the serialized length of a
container is the sum over its resources of
`MetricsBytesSizer.DeltaSize(ResourceMetricsSize(Ri))`, that is of
`1 + varintLength(|Ri|) + |Ri|`, for resources with `1 + |Ri| + 10` within the
`int` range; it is the plain sum of the `ResourceMetricsSize(Ri)` for the
empty container. -/
theorem bytes_container_delta_additive (p : ProtoMarshaler) (md : Metrics)
    (hfit : ∀ rm ∈ md.ResourceMetrics.items, 1 + p.ResourceMetricsSize rm + 10 ≤ maxInt) :
    p.MetricsSize md =
      (md.ResourceMetrics.items.map fun rm =>
        MetricsBytesSizer.DeltaSize (p.ResourceMetricsSize rm)).sum ∧
    p.MetricsSize md = ((md.ResourceMetrics.items.map fun rm =>
      1 + (varintLength (p.marshalResource rm).length : Int) +
        p.ResourceMetricsSize rm).sum) ∧
    p.MetricsSize ⟨⟨[]⟩⟩ = (([] : List ResourceMetrics).map p.ResourceMetricsSize).sum := by
  refine ⟨?_, ProtoMarshaler.MetricsSize_eq p md, rfl⟩
  rw [ProtoMarshaler.MetricsSize_eq]
  refine congrArg List.sum (List.map_congr_left ?_)
  intro rm hrm
  have h := hfit rm hrm
  have hd := bytes_DeltaSize_ofNat_of_room (p.marshalResource rm).length
    (by unfold ProtoMarshaler.ResourceMetricsSize at h; omega)
  unfold ProtoMarshaler.ResourceMetricsSize
  rw [hd]
  ring

open pmetric in
theorem sampleMarshaler_fits :
    ∀ rm ∈ sampleMetrics.ResourceMetrics.items,
      1 + sampleMarshaler.ResourceMetricsSize rm + 10 ≤ maxInt := by
  intro rm hrm
  simp only [sampleMetrics, List.mem_cons, List.mem_singleton, or_self, List.not_mem_nil,
    or_false] at hrm
  subst hrm
  decide

open pmetric in
theorem bytes_container_delta_additive_witness :
    (∀ rm ∈ sampleMetrics.ResourceMetrics.items,
      1 + sampleMarshaler.ResourceMetricsSize rm + 10 ≤ maxInt) ∧
    sampleMarshaler.MetricsSize sampleMetrics =
      (sampleMetrics.ResourceMetrics.items.map fun rm =>
        MetricsBytesSizer.DeltaSize (sampleMarshaler.ResourceMetricsSize rm)).sum :=
  ⟨sampleMarshaler_fits,
    (bytes_container_delta_additive sampleMarshaler sampleMetrics sampleMarshaler_fits).1⟩

/-! ## Count strategy: leaf operations -/

open pmetric MetricsCountSizer in
theorem DataPointSize_eq_one (p : DataPoint) : DataPointSize p = 1 := by
  cases p <;> rfl

open pmetric MetricsCountSizer in
theorem sum_DataPointSize (ps : List DataPoint) :
    (ps.map DataPointSize).sum = (ps.length : Int) := by
  induction ps with
  | nil => rfl
  | cons p ps ih =>
    simp only [List.map_cons, List.sum_cons, List.length_cons, ih, DataPointSize_eq_one]
    push_cast
    omega

open pmetric MetricsCountSizer in
/-- Claim C11: for the count strategy, `NumberDataPointSize`,
`HistogramDataPointSize`, `ExponentialHistogramDataPointSize` and
`SummaryDataPointSize` return 1 for every data point, whatever it holds, and
`MetricSize(M)` is the sum of the leaf sizes of the data points of `M`. -/
theorem count_leaf_sizes (ndp : NumberDataPoint) (hdp : HistogramDataPoint)
    (ehdp : ExponentialHistogramDataPoint) (sdp : SummaryDataPoint) (m : Metric) :
    NumberDataPointSize ndp = 1 ∧
    HistogramDataPointSize hdp = 1 ∧
    ExponentialHistogramDataPointSize ehdp = 1 ∧
    SummaryDataPointSize sdp = 1 ∧
    MetricSize m = some ((m.leaves.map DataPointSize).sum) := by
  refine ⟨rfl, rfl, rfl, rfl, ?_⟩
  rw [sum_DataPointSize]
  exact MetricSize_eq_leaves m

/-! ## Count strategy: totality -/

open pmetric MetricsCountSizer in
/-- From index `i`, with `k` elements left, the loop ends within `k + 1`
tests of its condition, with the value the size query returns. -/
theorem forLoop_from {α : Type} (s : Slice α) (f : α → Option Int) :
    ∀ (k i : Nat) (count : Int) (sizes : List Int), i + k = s.items.length →
      List.Forall₂ (fun x v => f x = some v) (s.items.drop i) sizes →
      forLoop s f (k + 1) (i : Int) count = Outcome.value (count + sizes.sum) := by
  intro k
  induction k with
  | zero =>
    intro i count sizes hik h
    have hnil : s.items.drop i = [] := List.drop_eq_nil_of_le (by omega)
    rw [hnil] at h
    cases h
    have hlen : ¬ ((i : Int) < s.Len) := by
      unfold Slice.Len
      omega
    simp only [forLoop, if_neg hlen, List.sum_nil, add_zero]
  | succ k ih =>
    intro i count sizes hik h
    have hi : i < s.items.length := by omega
    rw [List.drop_eq_getElem_cons hi] at h
    cases h with
    | cons hx hrest =>
      rename_i v vs
      have hlen : (i : Int) < s.Len := by
        unfold Slice.Len
        omega
      have hat : s.At (i : Int) = some s.items[i] := by
        rw [Slice.At_natCast, List.get?_eq_getElem?, List.getElem?_eq_getElem hi]
      have h2 := ih (i + 1) (count + v) vs (by omega) hrest
      rw [forLoop, if_pos hlen, hat]
      simp only [hx]
      rw [show ((i : Int) + 1) = ((i + 1 : Nat) : Int) by push_cast; rfl, h2, List.sum_cons,
        add_assoc]

open pmetric in
theorem Slice.At_of_mem_range {α : Type} (s : Slice α) (i : Nat)
    (hi : i ∈ List.range s.Len.toNat) :
    0 ≤ (i : Int) ∧ (i : Int) < s.Len ∧ ∃ x, s.At (i : Int) = some x := by
  have hlt : i < s.items.length := by
    have := List.mem_range.1 hi
    unfold Slice.Len at this
    omega
  refine ⟨Int.ofNat_nonneg i, by unfold Slice.Len; omega, s.items[i], ?_⟩
  rw [Slice.At_natCast, List.get?_eq_getElem?, List.getElem?_eq_getElem hlt]

open pmetric MetricsCountSizer in
/-- Claim C13: every count-strategy size query is total.  `MetricSize`,
`ScopeMetricsSize` and `ResourceMetricsSize` return a value on every input;
run test by test, each loop ends within `Len() + 1` tests of its condition
with that value, not in a panic; and every index `i` the loops pass to
`At(i)` has `0 <= i < Len()`, where `At(i)` returns an element. -/
theorem count_size_queries_total (rm : ResourceMetrics) (sm : ScopeMetrics) (m : Metric) :
    (∃ v, MetricSize m = some v) ∧
    (∃ v, ScopeMetricsSize sm = some v ∧
      forLoop sm.Metrics MetricSize (sm.Metrics.Len.toNat + 1) 0 0 = Outcome.value v) ∧
    (∃ v, ResourceMetricsSize rm = some v ∧
      forLoop rm.ScopeMetrics ScopeMetricsSize (rm.ScopeMetrics.Len.toNat + 1) 0 0 =
        Outcome.value v) ∧
    (∀ i ∈ List.range sm.Metrics.Len.toNat,
      0 ≤ (i : Int) ∧ (i : Int) < sm.Metrics.Len ∧ ∃ x, sm.Metrics.At (i : Int) = some x) ∧
    (∀ i ∈ List.range rm.ScopeMetrics.Len.toNat,
      0 ≤ (i : Int) ∧ (i : Int) < rm.ScopeMetrics.Len ∧
        ∃ x, rm.ScopeMetrics.At (i : Int) = some x) := by
  refine ⟨⟨_, MetricSize_eq_leaves m⟩, ⟨_, ScopeMetricsSize_eq_leaves sm, ?_⟩,
    ⟨_, ResourceMetricsSize_eq_leaves rm, ?_⟩, Slice.At_of_mem_range sm.Metrics,
    Slice.At_of_mem_range rm.ScopeMetrics⟩
  · have hlen : sm.Metrics.Len.toNat = sm.Metrics.items.length := by simp [Slice.Len]
    have h := forLoop_from sm.Metrics MetricSize sm.Metrics.items.length 0 0 _ (by omega)
      (forall₂_map_of_total MetricSize (fun M => (M.leaves.length : Int))
        MetricSize_eq_leaves sm.Metrics.items)
    rw [hlen]
    refine h.trans ?_
    rw [zero_add]
    unfold ScopeMetrics.leaves
    rw [← sum_map_length_flatten, List.map_map]
    rfl
  · have hlen : rm.ScopeMetrics.Len.toNat = rm.ScopeMetrics.items.length := by
      simp [Slice.Len]
    have h := forLoop_from rm.ScopeMetrics ScopeMetricsSize rm.ScopeMetrics.items.length 0 0 _
      (by omega)
      (forall₂_map_of_total ScopeMetricsSize (fun S => (S.leaves.length : Int))
        ScopeMetricsSize_eq_leaves rm.ScopeMetrics.items)
    rw [hlen]
    refine h.trans ?_
    rw [zero_add]
    unfold ResourceMetrics.leaves
    rw [← sum_map_length_flatten, List.map_map]
    rfl

open pmetric MetricsCountSizer in
theorem count_size_queries_total_witness :
    2 ∈ List.range sampleScope.Metrics.Len.toNat ∧
    (0 ≤ ((2 : Nat) : Int) ∧ ((2 : Nat) : Int) < sampleScope.Metrics.Len ∧
      ∃ x, sampleScope.Metrics.At ((2 : Nat) : Int) = some x) :=
  ⟨by decide,
    (count_size_queries_total sampleResource sampleScope sampleGauge).2.2.2.1 2 (by decide)⟩

/-! ## Signs, growth and range of `DeltaSize` -/

theorem uint64_lt (n : Int) : uint64 n < 2 ^ 64 := by
  have : (uint64 n : Int) < 2 ^ 64 := by
    unfold uint64
    omega
  exact_mod_cast this

theorem sov_uint64_neg (n : Int) (h0 : n < 0) (h1 : minInt ≤ n) :
    (2 ^ 63 : Int) ≤ uint64 n ∧ sov (uint64 n) = 10 := by
  have hu := uint64_of_neg n h0 h1
  have hth := sov_thresholds (uint64 n) (uint64_lt n)
  unfold minInt at h1
  have hge : ¬ uint64 n < 9223372036854775808 := by
    intro hc
    have : (uint64 n : Int) < 9223372036854775808 := by exact_mod_cast hc
    omega
  exact ⟨by omega, by omega⟩

/-- Near the top of the range the sum wraps: a size above `maxInt - 10` gets
a negative `DeltaSize`. -/
theorem bytes_DeltaSize_wraps (n : Int) (h0 : maxInt < n + 10) (h1 : n ≤ maxInt) :
    MetricsBytesSizer.DeltaSize n < 0 := by
  have hth := sov_thresholds n.toNat (toNat_lt_uint64 n h1)
  unfold maxInt at h0 h1
  have hs : sov n.toNat = 9 := by omega
  unfold MetricsBytesSizer.DeltaSize intAdd
  rw [uint64_of_nonneg n (by omega) (by unfold maxInt; omega), hs]
  unfold wrapInt
  omega

/-- Counterexample to claim C12 as stated: on the `int` arguments -1 and -20
the count strategy returns `DeltaSize(-1) = -1` and the byte strategy
`DeltaSize(-20) = -9`, both negative. -/
theorem deltaSize_negative_values :
    isInt (-1) ∧ isInt (-20) ∧
    MetricsCountSizer.DeltaSize (-1) = -1 ∧ ¬ 0 ≤ MetricsCountSizer.DeltaSize (-1) ∧
    MetricsBytesSizer.DeltaSize (-20) = -9 ∧ ¬ 0 ≤ MetricsBytesSizer.DeltaSize (-20) := by
  decide

open pmetric MetricsCountSizer in
/-- Claim C12, amended: every count-strategy size operation (`MetricsSize`,
`ResourceMetricsSize`, `ScopeMetricsSize`, `MetricSize`, the four leaf
operations) returns a value `>= 0` on every input; for an `int` argument `n`,
the count strategy's `DeltaSize(n)` is `>= 0` exactly when `n >= 0`, and the
byte strategy's exactly when `-11 <= n <= maxInt - 10`, so both are `>= 0` for
`0 <= n <= maxInt - 10`. -/
theorem sizes_nonneg (md : Metrics) (rm : ResourceMetrics) (sm : ScopeMetrics) (m : Metric)
    (ndp : NumberDataPoint) (hdp : HistogramDataPoint) (ehdp : ExponentialHistogramDataPoint)
    (sdp : SummaryDataPoint) (n : Int) (hn : isInt n) :
    0 ≤ MetricsSize md ∧
    (∃ v, ResourceMetricsSize rm = some v ∧ 0 ≤ v) ∧
    (∃ v, ScopeMetricsSize sm = some v ∧ 0 ≤ v) ∧
    (∃ v, MetricSize m = some v ∧ 0 ≤ v) ∧
    0 ≤ NumberDataPointSize ndp ∧
    0 ≤ HistogramDataPointSize hdp ∧
    0 ≤ ExponentialHistogramDataPointSize ehdp ∧
    0 ≤ SummaryDataPointSize sdp ∧
    (0 ≤ MetricsCountSizer.DeltaSize n ↔ 0 ≤ n) ∧
    (0 ≤ MetricsBytesSizer.DeltaSize n ↔ -11 ≤ n ∧ n + 10 ≤ maxInt) ∧
    (0 ≤ n → n + 10 ≤ maxInt →
      0 ≤ MetricsCountSizer.DeltaSize n ∧ 0 ≤ MetricsBytesSizer.DeltaSize n) := by
  have hbytes : 0 ≤ MetricsBytesSizer.DeltaSize n ↔ -11 ≤ n ∧ n + 10 ≤ maxInt := by
    obtain ⟨hlo, hhi⟩ := hn
    by_cases hneg : n < 0
    · rw [bytes_DeltaSize_neg n hneg hlo]
      unfold maxInt
      omega
    · by_cases hfit : n + 10 ≤ maxInt
      · have hth := sov_thresholds n.toNat (toNat_lt_uint64 n hhi)
        have hf : 1 + n + sov n.toNat ≤ maxInt := by
          unfold maxInt at hfit hhi ⊢
          omega
        rw [bytes_DeltaSize_eq_of_fit n (by omega) hf]
        omega
      · have := bytes_DeltaSize_wraps n (by omega) hhi
        omega
  refine ⟨Int.ofNat_nonneg _, ⟨_, ResourceMetricsSize_eq_leaves rm, Int.ofNat_nonneg _⟩,
    ⟨_, ScopeMetricsSize_eq_leaves sm, Int.ofNat_nonneg _⟩,
    ⟨_, MetricSize_eq_leaves m, Int.ofNat_nonneg _⟩, Int.one_nonneg, Int.one_nonneg,
    Int.one_nonneg, Int.one_nonneg, Iff.rfl, hbytes, ?_⟩
  intro h0 hfit
  exact ⟨h0, hbytes.2 ⟨by omega, hfit⟩⟩

open pmetric MetricsCountSizer in
theorem sizes_nonneg_witness :
    isInt 128 ∧ (0 : Int) ≤ 128 ∧ (128 : Int) + 10 ≤ maxInt ∧
    0 ≤ MetricsCountSizer.DeltaSize 128 ∧ 0 ≤ MetricsBytesSizer.DeltaSize 128 :=
  ⟨by decide, by decide, by decide,
    (sizes_nonneg sampleMetrics sampleResource sampleScope sampleGauge (samplePoint 0)
      ⟨[], 0, 0, 0, []⟩ ⟨[], 0, 0, 0, 0, 0⟩ ⟨[], 0, 0, 0⟩ 128 (by decide)).2.2.2.2.2.2.2.2.2.2
      (by decide) (by decide)⟩

/-- Claim C14: on non-negative sizes `MetricsBytesSizer.DeltaSize` is strictly
increasing: for `0 <= a < b` with `DeltaSize(b)`, that is `1 + b + sov(b)`,
within the `int` range, `DeltaSize(a) < DeltaSize(b)` and
`DeltaSize(b) - DeltaSize(a) >= b - a`. -/
theorem bytes_DeltaSize_strictly_increasing (a b : Int) (h0 : 0 ≤ a) (hab : a < b)
    (hfit : 1 + b + sov (uint64 b) ≤ maxInt) :
    MetricsBytesSizer.DeltaSize a < MetricsBytesSizer.DeltaSize b ∧
    b - a ≤ MetricsBytesSizer.DeltaSize b - MetricsBytesSizer.DeltaSize a := by
  have hsb := sov_pos (uint64 b)
  have hb : b ≤ maxInt := by omega
  rw [uint64_of_nonneg b (by omega) hb] at hfit
  have hta := sov_thresholds a.toNat (toNat_lt_uint64 a (by omega))
  have htb := sov_thresholds b.toNat (toNat_lt_uint64 b hb)
  have hfa : 1 + a + sov a.toNat ≤ maxInt := by
    unfold maxInt at hfit ⊢
    omega
  rw [bytes_DeltaSize_eq_of_fit a h0 hfa, bytes_DeltaSize_eq_of_fit b (by omega) hfit]
  constructor <;> omega

theorem bytes_DeltaSize_strictly_increasing_witness :
    (0 : Int) ≤ 127 ∧ (127 : Int) < 128 ∧ 1 + 128 + sov (uint64 128) ≤ maxInt ∧
    MetricsBytesSizer.DeltaSize 127 < MetricsBytesSizer.DeltaSize 128 :=
  ⟨by decide, by decide, by decide,
    (bytes_DeltaSize_strictly_increasing 127 128 (by decide) (by decide) (by decide)).1⟩

/-- Claim C15: for `0 <= n <= 2^63 - 1 - 10` the overhead of
`MetricsBytesSizer.DeltaSize` is bounded, `2 <= DeltaSize(n) - n <= 10`, the
length prefix being between 1 and 9 bytes, and the 64-bit computation
`1 + n + prefix` does not wrap: both sums are `int` values and the result is
the exact mathematical value. -/
theorem bytes_DeltaSize_overhead (n : Int) (h0 : 0 ≤ n) (h1 : n ≤ 2 ^ 63 - 1 - 10) :
    2 ≤ MetricsBytesSizer.DeltaSize n - n ∧
    MetricsBytesSizer.DeltaSize n - n ≤ 10 ∧
    1 ≤ sov (uint64 n) ∧ sov (uint64 n) ≤ 9 ∧
    isInt (1 + n) ∧ isInt (1 + n + sov (uint64 n)) ∧
    MetricsBytesSizer.DeltaSize n = 1 + n + sov (uint64 n) := by
  have hn : n ≤ maxInt := by unfold maxInt; omega
  have hth := sov_thresholds n.toNat (toNat_lt_uint64 n hn)
  have h9 : sov n.toNat ≤ 9 := by omega
  have hf : 1 + n + sov n.toNat ≤ maxInt := by unfold maxInt; omega
  rw [uint64_of_nonneg n h0 hn, bytes_DeltaSize_eq_of_fit n h0 hf]
  unfold isInt minInt maxInt
  refine ⟨by omega, by omega, by omega, h9, by omega, by omega, rfl⟩

theorem bytes_DeltaSize_overhead_witness :
    (0 : Int) ≤ 16384 ∧ (16384 : Int) ≤ 2 ^ 63 - 1 - 10 ∧
    2 ≤ MetricsBytesSizer.DeltaSize 16384 - 16384 ∧
    MetricsBytesSizer.DeltaSize 16384 - 16384 ≤ 10 :=
  ⟨by decide, by decide, (bytes_DeltaSize_overhead 16384 (by decide) (by decide)).1,
    (bytes_DeltaSize_overhead 16384 (by decide) (by decide)).2.1⟩

/-- Claim C16: `MetricsBytesSizer.DeltaSize` makes no check on a negative item
size: for every negative 64-bit `int` `n`, `uint64(n)` is `n + 2^64`, at least
`2^63`, its varint takes 10 bytes, and `DeltaSize(n)` returns `n + 11`; so
`DeltaSize(-1) = 10` and `DeltaSize(-20) = -9`. -/
theorem bytes_DeltaSize_negative (n : Int) (h0 : n < 0) (h1 : minInt ≤ n) :
    (uint64 n : Int) = n + 2 ^ 64 ∧
    (2 ^ 63 : Int) ≤ uint64 n ∧
    sov (uint64 n) = 10 ∧
    varintLength (uint64 n) = 10 ∧
    MetricsBytesSizer.DeltaSize n = n + 11 ∧
    MetricsBytesSizer.DeltaSize (-1) = 10 ∧
    MetricsBytesSizer.DeltaSize (-20) = -9 := by
  obtain ⟨hge, hs⟩ := sov_uint64_neg n h0 h1
  have hv : varintLength (uint64 n) = 10 := by
    have := sov_eq_varintLength (uint64 n) (uint64_lt n)
    omega
  exact ⟨uint64_of_neg n h0 h1, hge, hs, hv, bytes_DeltaSize_neg n h0 h1, by decide,
    by decide⟩

theorem bytes_DeltaSize_negative_witness :
    (-20 : Int) < 0 ∧ minInt ≤ -20 ∧ MetricsBytesSizer.DeltaSize (-20) = -20 + 11 :=
  ⟨by decide, by decide,
    (bytes_DeltaSize_negative (-20) (by decide) (by decide)).2.2.2.2.1⟩

end sizer
